import Mathlib

/-!
Verification development for the ML core of the DEVPOST poultry-dashboard
repository: the model registry and activation endpoint, the two caching
layers (`ModelCache`, `PredictionCache` in `backend/ml/optimization.py`),
the anomaly ensemble (`backend/ml/anomaly_detector_advanced.py`), the
multi-horizon forecast engine (`backend/ml/predict.py`) and model
comparison (`backend/ml/model_manager.py`,
`backend/routers/ml_predictions.py`).

Numeric values (Python floats) are modelled as rationals; wall-clock
times (`time.time()`) are explicit rational parameters.  Python `dict`s
are modelled as insertion-ordered association lists, matching CPython
semantics: assignment to an existing key updates it in place, assignment
to a fresh key appends, `del` removes the entry, iteration follows
insertion order, and `min` over keys returns the first key attaining the
minimum.
-/

/-! ## Association lists (Python `dict` with insertion order) -/

/-- Lookup of a key, first (and under `Nodup`, only) match wins:
Python `d.get(k)` / `d[k]`. -/
def aget {α : Type} (l : List (String × α)) (k : String) : Option α :=
  match l with
  | [] => none
  | (k', v) :: t => if k' = k then some v else aget t k

/-- Python `d.get(k, dflt)`. -/
def agetD {α : Type} (l : List (String × α)) (k : String) (dflt : α) : α :=
  (aget l k).getD dflt

/-- Python `d[k] = v`: update in place if present, else append. -/
def aset {α : Type} (l : List (String × α)) (k : String) (v : α) :
    List (String × α) :=
  match l with
  | [] => [(k, v)]
  | (k', v') :: t => if k' = k then (k, v) :: t else (k', v') :: aset t k v

/-- Python `del d[k]` on a present key: removes the first match. -/
def aerase {α : Type} (l : List (String × α)) (k : String) :
    List (String × α) :=
  match l with
  | [] => []
  | (k', v') :: t => if k' = k then t else (k', v') :: aerase t k

/-- Python `list(d.keys())` in iteration order. -/
def akeys {α : Type} : List (String × α) → List String
  | [] => []
  | (k, _) :: t => k :: akeys t

/-- One comparison step of Python `min`: keep the earlier element on ties. -/
def argminStep (acc : Option (String × ℕ)) (p : String × ℕ) :
    Option (String × ℕ) :=
  match acc with
  | none => some p
  | some q => if p.2 < q.2 then some p else some q

/-- Python `min(d.keys(), key=lambda k: d.get(k, 0))`: the first key/value
pair attaining the minimal value, `none` on an empty dict (where Python
`min` raises `ValueError`). -/
def argminVal (l : List (String × ℕ)) : Option (String × ℕ) :=
  l.foldl argminStep none

theorem akeys_cons {α : Type} (k : String) (v : α) (t : List (String × α)) :
    akeys ((k, v) :: t) = k :: akeys t := rfl

theorem aget_isSome_iff_mem_akeys {α : Type} (l : List (String × α))
    (k : String) : (aget l k).isSome ↔ k ∈ akeys l := by
  induction l with
  | nil => simp [aget, akeys]
  | cons p t ih =>
    obtain ⟨k', v⟩ := p
    by_cases h : k' = k
    · subst h
      simp [aget, akeys_cons]
    · simp only [aget, if_neg h, akeys_cons, List.mem_cons, ih]
      constructor
      · exact Or.inr
      · rintro (rfl | hm)
        · exact absurd rfl h
        · exact hm

theorem aget_eq_none_iff_not_mem {α : Type} (l : List (String × α))
    (k : String) : aget l k = none ↔ k ∉ akeys l := by
  rw [← aget_isSome_iff_mem_akeys]
  cases aget l k <;> simp

theorem akeys_aset_of_mem {α : Type} (l : List (String × α)) (k : String)
    (v : α) (h : k ∈ akeys l) : akeys (aset l k v) = akeys l := by
  induction l with
  | nil => simp [akeys] at h
  | cons p t ih =>
    obtain ⟨k', v'⟩ := p
    by_cases hk : k' = k
    · subst hk
      simp [aset, akeys_cons]
    · rw [akeys_cons, List.mem_cons] at h
      have hmem : k ∈ akeys t := by
        rcases h with h | h
        · exact absurd h.symm hk
        · exact h
      simp only [aset, if_neg hk, akeys_cons, ih hmem]

theorem akeys_aset_of_not_mem {α : Type} (l : List (String × α)) (k : String)
    (v : α) (h : k ∉ akeys l) : akeys (aset l k v) = akeys l ++ [k] := by
  induction l with
  | nil => simp [aset, akeys]
  | cons p t ih =>
    obtain ⟨k0, v0⟩ := p
    rw [akeys_cons, List.mem_cons] at h
    push_neg at h
    have hk0 : ¬k0 = k := fun hkk => h.1 hkk.symm
    simp only [aset, if_neg hk0, akeys_cons, List.cons_append,
      List.cons.injEq, true_and]
    exact ih h.2

theorem mem_akeys_aset {α : Type} (l : List (String × α)) (k k' : String)
    (v : α) : k' ∈ akeys (aset l k v) ↔ k' ∈ akeys l ∨ k' = k := by
  by_cases h : k ∈ akeys l
  · rw [akeys_aset_of_mem l k v h]
    constructor
    · exact Or.inl
    · rintro (hm | rfl)
      · exact hm
      · exact h
  · rw [akeys_aset_of_not_mem l k v h]
    simp

theorem nodup_akeys_aset {α : Type} (l : List (String × α)) (k : String)
    (v : α) (h : (akeys l).Nodup) : (akeys (aset l k v)).Nodup := by
  by_cases hm : k ∈ akeys l
  · rwa [akeys_aset_of_mem l k v hm]
  · rw [akeys_aset_of_not_mem l k v hm]
    simp [List.nodup_append, h, hm]

theorem mem_akeys_aerase {α : Type} (l : List (String × α)) (k k' : String)
    (h : (akeys l).Nodup) :
    k' ∈ akeys (aerase l k) ↔ k' ∈ akeys l ∧ k' ≠ k := by
  induction l with
  | nil => simp [aerase, akeys]
  | cons p t ih =>
    obtain ⟨k0, v0⟩ := p
    rw [akeys_cons, List.nodup_cons] at h
    by_cases hk : k0 = k
    · subst hk
      simp only [aerase, if_pos rfl, akeys_cons, List.mem_cons]
      constructor
      · intro hm
        refine ⟨Or.inr hm, ?_⟩
        rintro rfl
        exact h.1 hm
      · rintro ⟨hm | hm, hne⟩
        · exact absurd hm hne
        · exact hm
    · simp only [aerase, if_neg hk, akeys_cons, List.mem_cons, ih h.2]
      constructor
      · rintro (rfl | ⟨hm, hne⟩)
        · exact ⟨Or.inl rfl, fun hkk => hk (hkk ▸ rfl)⟩
        · exact ⟨Or.inr hm, hne⟩
      · rintro ⟨rfl | hm, hne⟩
        · exact Or.inl rfl
        · exact Or.inr ⟨hm, hne⟩

theorem nodup_akeys_aerase {α : Type} (l : List (String × α)) (k : String)
    (h : (akeys l).Nodup) : (akeys (aerase l k)).Nodup := by
  induction l with
  | nil => simp [aerase, akeys]
  | cons p t ih =>
    obtain ⟨k0, v0⟩ := p
    rw [akeys_cons, List.nodup_cons] at h
    by_cases hk : k0 = k
    · simpa [aerase, hk] using h.2
    · simp only [aerase, if_neg hk, akeys_cons, List.nodup_cons]
      refine ⟨fun hm => ?_, ih h.2⟩
      rw [mem_akeys_aerase t k k0 h.2] at hm
      exact h.1 hm.1

theorem length_aerase_of_mem {α : Type} (l : List (String × α)) (k : String)
    (h : k ∈ akeys l) : (aerase l k).length = l.length - 1 := by
  induction l with
  | nil => simp [akeys] at h
  | cons p t ih =>
    obtain ⟨k0, v0⟩ := p
    by_cases hk : k0 = k
    · simp [aerase, hk]
    · rw [akeys_cons, List.mem_cons] at h
      have hmem : k ∈ akeys t := by
        rcases h with h | h
        · exact absurd h.symm hk
        · exact h
      have ht : 1 ≤ t.length := by
        cases t with
        | nil => simp [akeys] at hmem
        | cons a s => simp
      simp only [aerase, if_neg hk, List.length_cons, ih hmem]
      omega

theorem length_aset_of_mem {α : Type} (l : List (String × α)) (k : String)
    (v : α) (h : k ∈ akeys l) : (aset l k v).length = l.length := by
  induction l with
  | nil => simp [akeys] at h
  | cons p t ih =>
    obtain ⟨k0, v0⟩ := p
    by_cases hk : k0 = k
    · simp [aset, hk]
    · rw [akeys_cons, List.mem_cons] at h
      have hmem : k ∈ akeys t := by
        rcases h with h | h
        · exact absurd h.symm hk
        · exact h
      simp [aset, hk, ih hmem]

theorem length_aset_of_not_mem {α : Type} (l : List (String × α)) (k : String)
    (v : α) (h : k ∉ akeys l) : (aset l k v).length = l.length + 1 := by
  induction l with
  | nil => simp [aset]
  | cons p t ih =>
    obtain ⟨k0, v0⟩ := p
    rw [akeys_cons, List.mem_cons] at h
    push_neg at h
    have hk0 : ¬k0 = k := fun hkk => h.1 hkk.symm
    simp [aset, if_neg hk0, ih h.2]

theorem argminFold_mem (l : List (String × ℕ)) :
    ∀ (acc : Option (String × ℕ)) (r : String × ℕ),
      l.foldl argminStep acc = some r → r ∈ l ∨ acc = some r := by
  induction l with
  | nil =>
    intro acc r h
    simp only [List.foldl_nil] at h
    exact Or.inr h
  | cons p t ih =>
    intro acc r h
    simp only [List.foldl_cons] at h
    rcases ih (argminStep acc p) r h with hm | hs
    · exact Or.inl (List.mem_cons_of_mem p hm)
    · cases acc with
      | none =>
        simp only [argminStep] at hs
        injection hs with hs
        subst hs
        exact Or.inl (List.mem_cons_self p t)
      | some q =>
        simp only [argminStep] at hs
        by_cases hlt : p.2 < q.2
        · rw [if_pos hlt] at hs
          injection hs with hs
          subst hs
          exact Or.inl (List.mem_cons_self p t)
        · rw [if_neg hlt] at hs
          injection hs with hs
          subst hs
          exact Or.inr rfl

theorem argminFold_le (l : List (String × ℕ)) :
    ∀ (acc : Option (String × ℕ)) (r : String × ℕ),
      l.foldl argminStep acc = some r →
      (∀ p ∈ l, r.2 ≤ p.2) ∧ (∀ q, acc = some q → r.2 ≤ q.2) := by
  induction l with
  | nil =>
    intro acc r h
    simp only [List.foldl_nil] at h
    refine ⟨by simp, fun q hq => ?_⟩
    rw [h] at hq
    injection hq with hq
    subst hq
    exact le_rfl
  | cons p t ih =>
    intro acc r h
    simp only [List.foldl_cons] at h
    obtain ⟨ht, hacc⟩ := ih (argminStep acc p) r h
    have hsome : ∃ s, argminStep acc p = some s := by
      cases acc with
      | none => exact ⟨p, rfl⟩
      | some q =>
        simp only [argminStep]
        by_cases hlt : p.2 < q.2
        · exact ⟨p, if_pos hlt⟩
        · exact ⟨q, if_neg hlt⟩
    obtain ⟨s, hs⟩ := hsome
    have hrs : r.2 ≤ s.2 := hacc s hs
    have hsp : s.2 ≤ p.2 := by
      cases acc with
      | none =>
        simp only [argminStep] at hs
        injection hs with hs
        subst hs
        exact le_rfl
      | some q =>
        simp only [argminStep] at hs
        by_cases hlt : p.2 < q.2
        · rw [if_pos hlt] at hs
          injection hs with hs
          subst hs
          exact le_rfl
        · rw [if_neg hlt] at hs
          injection hs with hs
          subst hs
          omega
    refine ⟨fun x hx => ?_, fun q hq => ?_⟩
    · rcases List.mem_cons.mp hx with rfl | hxt
      · exact le_trans hrs hsp
      · exact ht x hxt
    · subst hq
      simp only [argminStep] at hs
      by_cases hlt : p.2 < q.2
      · rw [if_pos hlt] at hs
        injection hs with hs
        subst hs
        omega
      · rw [if_neg hlt] at hs
        injection hs with hs
        subst hs
        exact hrs

theorem argminVal_mem (l : List (String × ℕ)) (p : String × ℕ)
    (h : argminVal l = some p) : p ∈ l := by
  rcases argminFold_mem l none p h with hm | hs
  · exact hm
  · simp at hs

theorem argminVal_le (l : List (String × ℕ)) (p : String × ℕ)
    (h : argminVal l = some p) : ∀ q ∈ l, p.2 ≤ q.2 :=
  (argminFold_le l none p h).1

/-! ## PredictionCache (`backend/ml/optimization.py`, class `PredictionCache`)

State of a `PredictionCache` instance.  `cache`, `access_times` and
`access_counts` are the three instance dicts; values cached are modelled
as rationals.  `time.time()` is passed explicitly as `now`. -/

structure PCache where
  cache : List (String × ℚ)
  max_size : ℕ
  ttl : ℚ
  access_times : List (String × ℚ)
  access_counts : List (String × ℕ)
deriving DecidableEq, Repr

/-- Python `PredictionCache.__init__(max_size, ttl_seconds)`. -/
def PCache.init (max_size : ℕ) (ttl : ℚ) : PCache :=
  ⟨[], max_size, ttl, [], []⟩

/-- Python `PredictionCache.get(key)` at wall-clock time `now`.  Returns the
Python return value and the state of the instance afterwards.  Source
lines 142-168: miss returns `None`; an entry whose last recorded access
time is at least `ttl` old is deleted from `self.cache` ONLY (the
`access_times`/`access_counts` entries are left behind) and `None` is
returned; otherwise the access time is refreshed, the access count
incremented, and the cached value returned. -/
def PCache.get (c : PCache) (key : String) (now : ℚ) :
    Option ℚ × PCache :=
  match aget c.cache key with
  | none => (none, c)
  | some v =>
    let access_time := agetD c.access_times key 0
    if c.ttl ≤ now - access_time then
      (none, { c with cache := aerase c.cache key })
    else
      (some v,
       { c with
         access_times := aset c.access_times key now,
         access_counts :=
           aset c.access_counts key (agetD c.access_counts key 0 + 1) })

/-- Insert `key ↦ value` into all three dicts (the unconditional tail of
`PredictionCache.set`). -/
def PCache.insertEntry (c : PCache) (key : String) (value : ℚ) (now : ℚ) :
    PCache :=
  { c with
    cache := aset c.cache key value,
    access_times := aset c.access_times key now,
    access_counts := aset c.access_counts key 1 }

/-- Python `PredictionCache.set(key, value)` at time `now` (source lines
170-195).  If the cache dict is full, the key with the globally smallest
access count (over `access_counts`, ties to the earliest-inserted key) is
computed and `del self.cache[lru_key]`, `del self.access_times[lru_key]`,
`del self.access_counts[lru_key]` run in order; a `del` on an absent key
raises `KeyError`, which aborts the method, leaving all mutations already
performed in place.  The result is the state of the instance afterwards
paired with `true` when an exception escaped. -/
def PCache.set (c : PCache) (key : String) (value : ℚ) (now : ℚ) :
    PCache × Bool :=
  if c.max_size ≤ c.cache.length then
    match argminVal c.access_counts with
    | none => (c, true)
    | some (lru_key, _) =>
      if lru_key ∈ akeys c.cache then
        let c1 := { c with cache := aerase c.cache lru_key }
        if lru_key ∈ akeys c1.access_times then
          let c2 := { c1 with access_times := aerase c1.access_times lru_key }
          if lru_key ∈ akeys c2.access_counts then
            let c3 :=
              { c2 with access_counts := aerase c2.access_counts lru_key }
            (c3.insertEntry key value now, false)
          else (c2, true)
        else (c1, true)
      else (c, true)
  else (c.insertEntry key value now, false)

/-- One iteration of the deletion loop of
`PredictionCache.clear_expired`: `del` from the three dicts in source
order, raising (`true`) on the first absent key. -/
def PCache.sweepOne (c : PCache) (k : String) : PCache × Bool :=
  if k ∈ akeys c.cache then
    let c1 := { c with cache := aerase c.cache k }
    if k ∈ akeys c1.access_times then
      let c2 := { c1 with access_times := aerase c1.access_times k }
      if k ∈ akeys c2.access_counts then
        ({ c2 with access_counts := aerase c2.access_counts k }, false)
      else (c2, true)
    else (c1, true)
  else (c, true)

/-- The deletion loop of `clear_expired` over the precomputed expired
keys; an exception stops the loop, keeping earlier deletions. -/
def PCache.sweepList (c : PCache) : List String → PCache × Bool
  | [] => (c, false)
  | k :: ks =>
    match PCache.sweepOne c k with
    | (c', false) => PCache.sweepList c' ks
    | (c', true) => (c', true)

/-- Python `PredictionCache.clear_expired()` at time `now` (source lines
197-219): the expired keys are collected from `access_times` first, then
deleted from all three dicts. -/
def PCache.clearExpired (c : PCache) (now : ℚ) : PCache × Bool :=
  let expired :=
    akeys (c.access_times.filter (fun p => c.ttl ≤ now - p.2))
  PCache.sweepList c expired

/-- Structural well-formedness of a `PredictionCache` state: each dict
has duplicate-free keys, every cached key has an access time, access
times and access counts share their key set, and the cache dict respects
the capacity. -/
structure PCacheInv (ms : ℕ) (ttl : ℚ) (c : PCache) : Prop where
  nd_cache : (akeys c.cache).Nodup
  nd_times : (akeys c.access_times).Nodup
  nd_counts : (akeys c.access_counts).Nodup
  sub : ∀ k, k ∈ akeys c.cache → k ∈ akeys c.access_times
  te : ∀ k, k ∈ akeys c.access_times ↔ k ∈ akeys c.access_counts
  len : c.cache.length ≤ ms
  msz : c.max_size = ms
  tt : c.ttl = ttl

/-- Cache states reachable from a freshly constructed
`PredictionCache(max_size, ttl_seconds)` by any interleaving of `get`,
`set` and `clear_expired` calls (keeping the post-state of a call even
when it raised, as the Python object does). -/
inductive PCacheReach (ms : ℕ) (ttl : ℚ) : PCache → Prop
  | init : PCacheReach ms ttl (PCache.init ms ttl)
  | get (c : PCache) (key : String) (now : ℚ) :
      PCacheReach ms ttl c → PCacheReach ms ttl (PCache.get c key now).2
  | set (c : PCache) (key : String) (value now : ℚ) :
      PCacheReach ms ttl c →
      PCacheReach ms ttl (PCache.set c key value now).1
  | sweep (c : PCache) (now : ℚ) :
      PCacheReach ms ttl c →
      PCacheReach ms ttl (PCache.clearExpired c now).1

theorem pcacheInv_init (ms : ℕ) (ttl : ℚ) :
    PCacheInv ms ttl (PCache.init ms ttl) := by
  refine ⟨?_, ?_, ?_, ?_, ?_, ?_, rfl, rfl⟩ <;> simp [PCache.init, akeys]

theorem pcacheInv_get (ms : ℕ) (ttl : ℚ) (c : PCache) (key : String)
    (now : ℚ) (h : PCacheInv ms ttl c) :
    PCacheInv ms ttl (PCache.get c key now).2 := by
  unfold PCache.get
  cases hg : aget c.cache key with
  | none => exact h
  | some v =>
    simp only
    by_cases hexp : c.ttl ≤ now - agetD c.access_times key 0
    · rw [if_pos hexp]
      refine ⟨nodup_akeys_aerase _ _ h.nd_cache, h.nd_times, h.nd_counts,
        ?_, h.te, ?_, h.msz, h.tt⟩
      · intro k hk
        rw [mem_akeys_aerase _ _ _ h.nd_cache] at hk
        exact h.sub k hk.1
      · calc (aerase c.cache key).length ≤ c.cache.length := by
              have hm : key ∈ akeys c.cache := by
                rw [← aget_isSome_iff_mem_akeys, hg]
                rfl
              rw [length_aerase_of_mem _ _ hm]
              omega
          _ ≤ ms := h.len
    · rw [if_neg hexp]
      have hkc : key ∈ akeys c.cache := by
        rw [← aget_isSome_iff_mem_akeys, hg]
        rfl
      have hkt : key ∈ akeys c.access_times := h.sub key hkc
      have hkn : key ∈ akeys c.access_counts := (h.te key).mp hkt
      refine ⟨h.nd_cache, nodup_akeys_aset _ _ _ h.nd_times,
        nodup_akeys_aset _ _ _ h.nd_counts, ?_, ?_, h.len, h.msz, h.tt⟩
      · intro k hk
        rw [akeys_aset_of_mem _ _ _ hkt]
        exact h.sub k hk
      · intro k
        rw [akeys_aset_of_mem _ _ _ hkt, akeys_aset_of_mem _ _ _ hkn]
        exact h.te k

theorem pcacheInv_insertEntry (ms : ℕ) (ttl : ℚ) (c : PCache) (key : String)
    (value now : ℚ) (h : PCacheInv ms ttl c) (hroom : c.cache.length < ms) :
    PCacheInv ms ttl (c.insertEntry key value now) := by
  unfold PCache.insertEntry
  refine ⟨nodup_akeys_aset _ _ _ h.nd_cache,
    nodup_akeys_aset _ _ _ h.nd_times,
    nodup_akeys_aset _ _ _ h.nd_counts, ?_, ?_, ?_, h.msz, h.tt⟩
  · intro k hk
    rw [mem_akeys_aset] at hk ⊢
    rcases hk with hk | rfl
    · exact Or.inl (h.sub k hk)
    · exact Or.inr rfl
  · intro k
    rw [mem_akeys_aset, mem_akeys_aset]
    constructor
    · rintro (hk | rfl)
      · exact Or.inl ((h.te k).mp hk)
      · exact Or.inr rfl
    · rintro (hk | rfl)
      · exact Or.inl ((h.te k).mpr hk)
      · exact Or.inr rfl
  · by_cases hm : key ∈ akeys c.cache
    · rw [length_aset_of_mem _ _ _ hm]
      exact h.len
    · rw [length_aset_of_not_mem _ _ _ hm]
      omega

theorem pcacheInv_set (ms : ℕ) (ttl : ℚ) (c : PCache) (key : String)
    (value now : ℚ) (h : PCacheInv ms ttl c) :
    PCacheInv ms ttl (PCache.set c key value now).1 := by
  unfold PCache.set
  by_cases hfull : c.max_size ≤ c.cache.length
  · rw [if_pos hfull]
    cases harg : argminVal c.access_counts with
    | none => exact h
    | some p =>
      obtain ⟨lru, cnt⟩ := p
      simp only
      by_cases h1 : lru ∈ akeys c.cache
      · rw [if_pos h1]
        have h2 : lru ∈ akeys c.access_times := h.sub lru h1
        have h3 : lru ∈ akeys c.access_counts := (h.te lru).mp h2
        simp only [if_pos h2, if_pos h3]
        have hlen : c.cache.length = ms := by
          have := h.len
          have := h.msz ▸ hfull
          omega
        have hlenE : (aerase c.cache lru).length = ms - 1 := by
          rw [length_aerase_of_mem _ _ h1, hlen]
        have hms1 : 1 ≤ ms := by
          have : 1 ≤ c.cache.length := by
            cases hcc : c.cache with
            | nil => rw [hcc] at h1; simp [akeys] at h1
            | cons a t => simp
          omega
        refine pcacheInv_insertEntry ms ttl _ key value now
          ⟨nodup_akeys_aerase _ _ h.nd_cache,
           nodup_akeys_aerase _ _ h.nd_times,
           nodup_akeys_aerase _ _ h.nd_counts, ?_, ?_, ?_, h.msz, h.tt⟩ ?_
        · intro k hk
          rw [mem_akeys_aerase _ _ _ h.nd_cache] at hk
          rw [mem_akeys_aerase _ _ _ h.nd_times]
          exact ⟨h.sub k hk.1, hk.2⟩
        · intro k
          rw [mem_akeys_aerase _ _ _ h.nd_times,
            mem_akeys_aerase _ _ _ h.nd_counts]
          constructor
          · rintro ⟨hk, hne⟩
            exact ⟨(h.te k).mp hk, hne⟩
          · rintro ⟨hk, hne⟩
            exact ⟨(h.te k).mpr hk, hne⟩
        · simp only [hlenE]
          omega
        · simp only [hlenE]
          omega
      · rw [if_neg h1]
        exact h
  · rw [if_neg hfull]
    refine pcacheInv_insertEntry ms ttl c key value now h ?_
    rw [← h.msz]
    omega

theorem pcacheInv_sweepOne (ms : ℕ) (ttl : ℚ) (c : PCache) (k : String)
    (h : PCacheInv ms ttl c) : PCacheInv ms ttl (PCache.sweepOne c k).1 := by
  unfold PCache.sweepOne
  by_cases h1 : k ∈ akeys c.cache
  · rw [if_pos h1]
    have h2 : k ∈ akeys c.access_times := h.sub k h1
    have h3 : k ∈ akeys c.access_counts := (h.te k).mp h2
    simp only [if_pos h2, if_pos h3]
    refine ⟨nodup_akeys_aerase _ _ h.nd_cache,
      nodup_akeys_aerase _ _ h.nd_times,
      nodup_akeys_aerase _ _ h.nd_counts, ?_, ?_, ?_, h.msz, h.tt⟩
    · intro k' hk'
      rw [mem_akeys_aerase _ _ _ h.nd_cache] at hk'
      rw [mem_akeys_aerase _ _ _ h.nd_times]
      exact ⟨h.sub k' hk'.1, hk'.2⟩
    · intro k'
      rw [mem_akeys_aerase _ _ _ h.nd_times,
        mem_akeys_aerase _ _ _ h.nd_counts]
      constructor
      · rintro ⟨hk, hne⟩
        exact ⟨(h.te k').mp hk, hne⟩
      · rintro ⟨hk, hne⟩
        exact ⟨(h.te k').mpr hk, hne⟩
    · calc (aerase c.cache k).length ≤ c.cache.length := by
            rw [length_aerase_of_mem _ _ h1]
            omega
        _ ≤ ms := h.len
  · rw [if_neg h1]
    exact h

theorem pcacheInv_sweepList (ms : ℕ) (ttl : ℚ) (ks : List String) :
    ∀ c : PCache, PCacheInv ms ttl c →
      PCacheInv ms ttl (PCache.sweepList c ks).1 := by
  induction ks with
  | nil =>
    intro c h
    exact h
  | cons k ks ih =>
    intro c h
    unfold PCache.sweepList
    have hone := pcacheInv_sweepOne ms ttl c k h
    cases hsw : PCache.sweepOne c k with
    | mk c' raised =>
      cases raised with
      | false =>
        simp only
        exact ih c' (by rw [hsw] at hone; exact hone)
      | true =>
        simp only
        rw [hsw] at hone
        exact hone

theorem pcacheInv_clearExpired (ms : ℕ) (ttl : ℚ) (c : PCache) (now : ℚ)
    (h : PCacheInv ms ttl c) :
    PCacheInv ms ttl (PCache.clearExpired c now).1 :=
  pcacheInv_sweepList ms ttl _ c h

/-- Every reachable `PredictionCache` state is well-formed. -/
theorem pcacheReach_inv (ms : ℕ) (ttl : ℚ) (c : PCache)
    (h : PCacheReach ms ttl c) : PCacheInv ms ttl c := by
  induction h with
  | init => exact pcacheInv_init ms ttl
  | get c key now _ ih => exact pcacheInv_get ms ttl c key now ih
  | set c key value now _ ih => exact pcacheInv_set ms ttl c key value now ih
  | sweep c now _ ih => exact pcacheInv_clearExpired ms ttl c now ih

/-! ## ModelCache (`backend/ml/optimization.py`, class `ModelCache`)

Deserialized model artifacts are abstracted as natural-number tokens;
`joblib.load` is an explicit oracle `load : String → Except String ℕ` (a
`.error` is a raised exception that propagates out of `get_model`). -/

structure MCache where
  cache : List (String × ℕ)
  ttl : ℚ
  access_times : List (String × ℚ)
deriving DecidableEq, Repr

/-- Python `ModelCache.__init__(ttl_seconds)` (default 3600). -/
def MCache.init (ttl : ℚ) : MCache := ⟨[], ttl, []⟩

/-- Python `ModelCache.get_model(model_path)` at time `now` with loader oracle
`load` (source lines 34-68).  Returns the Python result (or the escaped
exception), the state afterwards, and the number of storage loads
performed (0 or 1).  A cached entry whose last access is younger than
`ttl` is returned directly with the access time refreshed; an expired
entry is deleted from both dicts and the artifact reloaded from storage;
a miss loads from storage and populates both dicts. -/
def MCache.get_model (c : MCache) (path : String) (now : ℚ)
    (load : String → Except String ℕ) :
    Except String ℕ × MCache × ℕ :=
  let fromDisk : MCache → Except String ℕ × MCache × ℕ := fun c0 =>
    match load path with
    | Except.ok m =>
      (Except.ok m,
       { c0 with
         cache := aset c0.cache path m,
         access_times := aset c0.access_times path now }, 1)
    | Except.error e => (Except.error e, c0, 1)
  match aget c.cache path with
  | some m =>
    let access_time := agetD c.access_times path 0
    if now - access_time < c.ttl then
      (Except.ok m,
       { c with access_times := aset c.access_times path now }, 0)
    else
      fromDisk
        { c with
          cache := aerase c.cache path,
          access_times := aerase c.access_times path }
  | none => fromDisk c

/-! ## Anomaly ensemble (`backend/ml/anomaly_detector_advanced.py`)

The sklearn estimators themselves are black boxes; their raw per-row
score outputs (`IsolationForest.score_samples`, the negated
`negative_outlier_factor_` restricted to the test rows) enter the
embedding as explicit lists.  Everything the repository computes from
those raw scores — training-size gates, min-max normalization, the
z-score membership test and the weighted combination — is embedded from
the source. -/

/-- Min-max normalization of a batch of raw scores to `[0, 1]` with the
degenerate-batch rule: if the maximum equals the minimum every row maps
to 0 (`IsolationForestDetector.anomaly_score` lines 102-114,
`LocalOutlierFactorDetector.anomaly_score` lines 243-261). -/
def minmaxNormalize (raw : List ℚ) : List ℚ :=
  match raw.min?, raw.max? with
  | some mn, some mx =>
    if mx = mn then List.replicate raw.length 0
    else raw.map (fun x => (x - mn) / (mx - mn))
  | _, _ => []

/-- Source `IsolationForestDetector.fit` trains only on at least 10 samples
(line 58: `if len(data) < 10: return`). -/
def isoFitTrained (train : List (List ℚ)) : Bool :=
  decide (10 ≤ train.length)

/-- Source `LocalOutlierFactorDetector` with `n_neighbors = max(n, 5)` (line
172) trains only on at least `n_neighbors + 1` samples (line 191). -/
def lofFitTrained (n_neighbors : ℕ) (train : List (List ℚ)) : Bool :=
  decide (max n_neighbors 5 + 1 ≤ train.length)

/-- Source `StatisticalAnomalyDetector.fit` succeeds on any nonempty matrix
(`np.percentile` of an empty array raises inside the `try`, leaving the
detector untrained). -/
def statFitTrained (train : List (List ℚ)) : Bool :=
  decide (train ≠ [])

/-- Numpy `np.mean(data, axis=0)`: per-column means, column count taken from
the first row. -/
def colMeans (data : List (List ℚ)) : List ℚ :=
  match data with
  | [] => []
  | r :: _ =>
    (List.range r.length).map
      (fun j => ((data.map (fun row => row.getD j 0)).sum) / data.length)

/-- Per-column population variances (`np.std(data, axis=0)` squared);
`np.std` itself is the nonnegative square root of this, which is not
rational in general, so fitted standard deviations enter theorems as
values `s` with `0 ≤ s` and `s ^ 2` equal to this variance. -/
def colVars (data : List (List ℚ)) : List ℚ :=
  match data with
  | [] => []
  | r :: _ =>
    (List.range r.length).map
      (fun j =>
        ((data.map
          (fun row =>
            (row.getD j 0 - (colMeans data).getD j 0) ^ 2)).sum) /
        data.length)

/-- Is one row flagged by `StatisticalAnomalyDetector.detect_by_zscore`?
`z = |x - mean| / (std + 1e-8)`; the row is anomalous if ANY feature
exceeds the threshold (lines 305-327). -/
def rowZAnomalous (means stds row : List ℚ) (threshold : ℚ) : Bool :=
  (List.range row.length).any
    (fun j =>
      decide (threshold <
        |row.getD j 0 - means.getD j 0| / (stds.getD j 0 + 1 / 100000000)))

/-- Source `StatisticalAnomalyDetector.detect_by_zscore(data, threshold=3.0)`:
indices of flagged rows; an untrained detector returns `[]`. -/
def detectByZscore (trained : Bool) (means stds : List ℚ)
    (data : List (List ℚ)) (threshold : ℚ) : List ℕ :=
  if trained then
    (data.enum.filter
      (fun p => rowZAnomalous means stds p.2 threshold)).map Prod.fst
  else []

/-- Source `IsolationForestDetector.anomaly_score(data)`: zeros when untrained,
otherwise the min-max-normalized raw `score_samples` output. -/
def isoAnomalyScore (trained : Bool) (n : ℕ) (raw : List ℚ) : List ℚ :=
  if trained then minmaxNormalize raw else List.replicate n 0

/-- Source `LocalOutlierFactorDetector.anomaly_score(data)`: zeros when
untrained, otherwise the min-max-normalized raw test-row outlier
factors. -/
def lofAnomalyScore (trained : Bool) (n : ℕ) (raw : List ℚ) : List ℚ :=
  if trained then minmaxNormalize raw else List.replicate n 0

/-- The weights dict passed to `AnomalyEnsemble.detect`. -/
structure EnsembleWeights where
  iso_forest : ℚ
  lof : ℚ
  statistical : ℚ
  timeseries : ℚ
deriving DecidableEq, Repr

/-- The default weights 0.3/0.3/0.2/0.2 (lines 593-598). -/
def defaultWeights : EnsembleWeights :=
  ⟨3 / 10, 3 / 10, 2 / 10, 2 / 10⟩

/-- Source `AnomalyEnsemble.detect(data, weights)` (lines 585-627): starts from
a zero vector, adds `w * detector_score` for the isolation-forest, LOF
and statistical detectors when the corresponding weight is positive, and
finally divides by the sum of ALL four weight dict values when that is
positive.  The `timeseries` weight never contributes a score term, and a
weight stays in the divisor whether or not its detector trained. -/
def ensembleDetect (w : EnsembleWeights) (isoTrained : Bool)
    (isoRaw : List ℚ) (lofTrained : Bool) (lofRaw : List ℚ)
    (statTrained : Bool) (means stds : List ℚ)
    (data : List (List ℚ)) : List ℚ :=
  let n := data.length
  let scores0 := List.replicate n (0 : ℚ)
  let s1 :=
    if 0 < w.iso_forest then
      List.zipWith (fun s x => s + w.iso_forest * x) scores0
        (isoAnomalyScore isoTrained n isoRaw)
    else scores0
  let s2 :=
    if 0 < w.lof then
      List.zipWith (fun s x => s + w.lof * x) s1
        (lofAnomalyScore lofTrained n lofRaw)
    else s1
  let stat_anomalies := detectByZscore statTrained means stds data 3
  let stat_scores :=
    (List.range n).map (fun i => if i ∈ stat_anomalies then (1 : ℚ) else 0)
  let s3 :=
    if 0 < w.statistical then
      List.zipWith (fun s x => s + w.statistical * x) s2 stat_scores
    else s2
  let total_weight := w.iso_forest + w.lof + w.statistical + w.timeseries
  if 0 < total_weight then s3.map (fun s => s / total_weight) else s3

/-! ## Forecast engine (`backend/ml/predict.py`, class `MLPredictor`) -/

/-- Round to the nearest integer, ties to even: Python `round` on an
exact decimal value. -/
def rne (x : ℚ) : ℤ :=
  if x - ⌊x⌋ = 1 / 2 then (if 2 ∣ ⌊x⌋ then ⌊x⌋ else ⌊x⌋ + 1) else round x

/-- Python `round(x, 3)`. -/
def round3 (x : ℚ) : ℚ := (rne (1000 * x) : ℚ) / 1000

/-- The per-day blend of `predict_multi_horizon` (lines 241-247):
`0.7 * model_prediction + 0.3 * (current_weight + growth_rate * day)`. -/
def blendedPred (pred current_weight growth_rate : ℚ) (day : ℕ) : ℚ :=
  7 / 10 * pred + 3 / 10 * (current_weight + growth_rate * day)

/-- The per-day `(predicted, lower, upper)` triples appended by the
`for day in range(1, horizon + 1)` loop of `predict_multi_horizon`
(lines 230-251): `round(final_pred, 3)`, `round(final_pred * 0.9, 3)`,
`round(final_pred * 1.1, 3)`.  `preds day` is the model output
`predict_single_day` returns for the features adjusted to `day` (an
oracle for the sklearn regressor). -/
def horizonTriples (preds : ℕ → ℚ) (current_weight growth_rate : ℚ)
    (horizon : ℕ) : List (ℚ × ℚ × ℚ) :=
  (List.range horizon).map
    (fun d0 =>
      let day := d0 + 1
      let final_pred := blendedPred (preds day) current_weight growth_rate day
      (round3 final_pred, round3 (final_pred * (9 / 10)),
       round3 (final_pred * (11 / 10))))

/-- Source `predict_single_day` (lines 163-186): point prediction plus the
confidence band `± 1.5 * test_mae`. -/
def predictSingleDay (prediction test_mae : ℚ) : ℚ × ℚ × ℚ :=
  let margin := test_mae * (15 / 10)
  (prediction, prediction - margin, prediction + margin)

/-- The recent-history window of `create_prediction_features` (line 96):
rows dated at most `as_of`, keeping the last 7. -/
def recentWindow (dates : List ℚ) (as_of : ℚ) : List ℚ :=
  let filtered := dates.filter (fun d => d ≤ as_of)
  filtered.drop (filtered.length - 7)

/-- The insufficiency gate of `create_prediction_features` (lines
96-103): `ValueError` when the recent window holds fewer than 3 rows.
`dates` are the observation dates of the room's rows. -/
def createPredictionFeaturesGate (dates : List ℚ) (as_of : ℚ) :
    Except String Unit :=
  if (recentWindow dates as_of).length < 3 then
    Except.error "Insufficient historical data for prediction (need at least 3 days)"
  else Except.ok ()

/-- Result dict of `predict_multi_horizon`: either the prediction
payload (whose numeric content is driven by the model oracle and is not
needed for the claims below) or the error dict
`{room_id, error, message}` produced by the `except` clause. -/
inductive ForecastOutcome
  | payload
  | errorPayload (msg : String)
deriving DecidableEq, Repr

/-- Source `predict_multi_horizon(room_id)` control flow (lines 199-287): the
whole body runs under `try`; `load_room_data` raises when the room has
no rows, `create_prediction_features` raises the insufficiency
`ValueError`, and the `except Exception` clause turns ANY raised error
into a normal return of the error dict.  The outer `Except` is the
channel for exceptions escaping to the caller: no code path produces
`Except.error`. -/
def predictMultiHorizon (dates : List ℚ) :
    Except String ForecastOutcome :=
  Except.ok
    (if dates = [] then
      ForecastOutcome.errorPayload "Room not found in data"
    else
      match createPredictionFeaturesGate dates
          (dates.foldl max (dates.headD 0)) with
      | Except.error e => ForecastOutcome.errorPayload e
      | Except.ok _ => ForecastOutcome.payload)

/-! ## Model registry (`backend/models/farm.py` `MLModel`,
`backend/routers/ml_predictions.py` `activate_model`) -/

/-- A row of the `ml_models` table, restricted to the columns the
activation endpoint touches.  `artifactsValid` abstracts whether
`ModelManager.validate_model` would succeed on the version's artifacts;
the activation endpoint never consults it. -/
structure MLModelRow where
  id : ℕ
  is_active : Bool
  status : String
  artifactsValid : Bool
deriving DecidableEq, Repr

/-- Endpoint `activate_model(model_id)` (`routers/ml_predictions.py` lines
168-206): look the target up by id (404 when absent,
`MultipleResultsFound` if the id is duplicated), set `is_active = False`
on every row, then `is_active = True` and `status = 'deployed'` on the
target, and commit once.  `Except.error` is an escaped HTTP error; the
registry is unchanged in that case. -/
def activate_model (db : List MLModelRow) (model_id : ℕ) :
    Except String (List MLModelRow) :=
  match db.filter (fun m => m.id = model_id) with
  | [] => Except.error "Model not found"
  | [_] =>
    Except.ok
      (db.map
        (fun m =>
          if m.id = model_id then
            { m with is_active := true, status := "deployed" }
          else { m with is_active := false }))
  | _ => Except.error "MultipleResultsFound"

/-! ## Model comparison (`backend/ml/model_manager.py`,
`ModelManager.compare_models`, lines 133-185) -/

/-- The fields of the comparison dict relevant to the claims: the three
per-metric winners and the recommendation string. -/
structure ModelComparison where
  maeWinner : String
  r2Winner : String
  perfWinner : String
  recommendation : String
deriving DecidableEq, Repr

/-- Source `ModelManager.compare_models(version1, version2)` on the two metrics
dicts (from each version's `metrics.json`).  Winners: `test_mae` lower
is better (default 999 when missing), `test_r2` and `performance_score`
higher is better (default 0); every tie goes to `version2` because the
source uses strict comparisons favouring `version1`.  The
recommendation goes to the version winning the majority of the three
metrics. -/
def compare_models (version1 version2 : String)
    (m1 m2 : List (String × ℚ)) : ModelComparison :=
  let maeW :=
    if agetD m1 "test_mae" 999 < agetD m2 "test_mae" 999 then version1
    else version2
  let r2W :=
    if agetD m2 "test_r2" 0 < agetD m1 "test_r2" 0 then version1
    else version2
  let perfW :=
    if agetD m2 "performance_score" 0 < agetD m1 "performance_score" 0 then
      version1
    else version2
  let v1_wins :=
    (if maeW = version1 then 1 else 0) + (if r2W = version1 then 1 else 0) +
      (if perfW = version1 then 1 else 0)
  let v2_wins :=
    (if maeW = version2 then 1 else 0) + (if r2W = version2 then 1 else 0) +
      (if perfW = version2 then 1 else 0)
  let recommendation :=
    if v2_wins < v1_wins then version1 ++ " performs better overall"
    else if v1_wins < v2_wins then version2 ++ " performs better overall"
    else "Models perform similarly"
  ⟨maeW, r2W, perfW, recommendation⟩

/-! ## Helper lemmas -/

theorem aget_aset_self {α : Type} (l : List (String × α)) (k : String)
    (v : α) : aget (aset l k v) k = some v := by
  induction l with
  | nil => simp [aset, aget]
  | cons p t ih =>
    obtain ⟨k0, v0⟩ := p
    by_cases hk : k0 = k
    · simp [aset, hk, aget]
    · simp [aset, hk, aget, ih]

theorem aget_mem {α : Type} (l : List (String × α)) (k : String) (v : α)
    (h : aget l k = some v) : (k, v) ∈ l := by
  induction l with
  | nil => simp [aget] at h
  | cons p t ih =>
    obtain ⟨k0, v0⟩ := p
    by_cases hk : k0 = k
    · subst hk
      rw [aget, if_pos rfl] at h
      injection h with h
      subst h
      exact List.mem_cons_self _ _
    · rw [aget, if_neg hk] at h
      exact List.mem_cons_of_mem _ (ih h)

theorem mem_akeys_of_mem {α : Type} (l : List (String × α)) (k : String)
    (v : α) (h : (k, v) ∈ l) : k ∈ akeys l := by
  induction l with
  | nil => simp at h
  | cons p t ih =>
    obtain ⟨k0, v0⟩ := p
    rw [akeys_cons, List.mem_cons]
    rcases List.mem_cons.mp h with heq | hmem
    · injection heq with h1 _
      exact Or.inl h1
    · exact Or.inr (ih hmem)

theorem aget_of_mem_nodup {α : Type} (l : List (String × α)) (k : String)
    (v : α) (hnd : (akeys l).Nodup) (h : (k, v) ∈ l) :
    aget l k = some v := by
  induction l with
  | nil => simp at h
  | cons p t ih =>
    obtain ⟨k0, v0⟩ := p
    rw [akeys_cons, List.nodup_cons] at hnd
    rcases List.mem_cons.mp h with heq | hmem
    · injection heq with h1 h2
      subst h1
      subst h2
      simp [aget]
    · have hk : ¬k0 = k := by
        rintro rfl
        exact hnd.1 (mem_akeys_of_mem t k0 v hmem)
      rw [aget, if_neg hk]
      exact ih hnd.2 hmem

theorem aget_aerase_self_of_nodup {α : Type} (l : List (String × α))
    (k : String) (h : (akeys l).Nodup) : aget (aerase l k) k = none := by
  rw [aget_eq_none_iff_not_mem]
  rw [mem_akeys_aerase l k k h]
  simp

theorem rne_bounds (x : ℚ) :
    x - 1 / 2 ≤ (rne x : ℚ) ∧ (rne x : ℚ) ≤ x + 1 / 2 := by
  unfold rne
  split_ifs with h1 h2
  · have hf : (⌊x⌋ : ℚ) = x - 1 / 2 := by linarith
    constructor
    · linarith
    · linarith [Int.floor_le x]
  · have hf : (⌊x⌋ : ℚ) = x - 1 / 2 := by linarith
    constructor
    · push_cast
      linarith
    · push_cast
      linarith [hf]
  · have habs := abs_sub_round x
    rw [abs_le] at habs
    constructor
    · linarith [habs.2]
    · linarith [habs.1]

theorem rne_mono {x y : ℚ} (h : x ≤ y) : rne x ≤ rne y := by
  by_contra hlt
  push_neg at hlt
  have h1 : rne y + 1 ≤ rne x := hlt
  have h1q : (rne y : ℚ) + 1 ≤ (rne x : ℚ) := by exact_mod_cast h1
  have hbx := rne_bounds x
  have hby := rne_bounds y
  have hyx : y ≤ x := by linarith [hbx.2, hby.1]
  have hxy : x = y := le_antisymm h hyx
  subst hxy
  omega

theorem round3_mono {x y : ℚ} (h : x ≤ y) : round3 x ≤ round3 y := by
  unfold round3
  have := rne_mono (show 1000 * x ≤ 1000 * y by linarith)
  have hc : ((rne (1000 * x) : ℤ) : ℚ) ≤ ((rne (1000 * y) : ℤ) : ℚ) := by
    exact_mod_cast this
  linarith

theorem rne_intCast (n : ℤ) : rne (n : ℚ) = n := by
  unfold rne
  rw [Int.floor_intCast]
  have h : ((n : ℚ) - n ≠ 1 / 2) := by
    simp only [sub_self]
    norm_num
  rw [if_neg h, round_intCast]

theorem round3_of_int_div (n : ℤ) : round3 ((n : ℚ) / 1000) = (n : ℚ) / 1000 := by
  unfold round3
  rw [show (1000 : ℚ) * ((n : ℚ) / 1000) = (n : ℚ) by ring, rne_intCast]

theorem getElem?_zipWith {α β γ : Type} (f : α → β → γ) (a : List α)
    (b : List β) (i : ℕ) (x : α) (y : β) (hx : a[i]? = some x)
    (hy : b[i]? = some y) : (List.zipWith f a b)[i]? = some (f x y) := by
  induction a generalizing b i with
  | nil => simp at hx
  | cons a0 at_ ih =>
    cases b with
    | nil => simp at hy
    | cons b0 bt =>
      cases i with
      | zero =>
        simp only [List.getElem?_cons_zero] at hx hy
        injection hx with hx
        injection hy with hy
        subst hx
        subst hy
        simp [List.zipWith]
      | succ j =>
        simp only [List.getElem?_cons_succ] at hx hy
        simpa [List.zipWith] using ih bt j hx hy

theorem getElem?_replicate_of_lt {α : Type} (n i : ℕ) (x : α) (h : i < n) :
    (List.replicate n x)[i]? = some x := by
  induction n generalizing i with
  | zero => omega
  | succ m ih =>
    cases i with
    | zero => simp [List.replicate]
    | succ j =>
      simp only [List.replicate, List.getElem?_cons_succ]
      exact ih j (by omega)

/-! ## Claims -/

/-- Claim C1 counterexample.  The claim states that `PredictionCache.get`
answers from the cache iff `now - inserted_at < ttl`, regardless of any
hits in between.  In the code the single `access_times` dict is
refreshed on every hit and the expiry test compares `now` with the LAST
ACCESS, not the insertion time.  Concretely, with `ttl = 10`: insert
`"k"` at time 0, hit it at time 5 (refreshing the access time), and
`get` at time 12 still returns the cached value without any reload even
though `12 - 0 ≥ 10`, i.e. more than one TTL past insertion. -/
theorem c1_counterexample :
    (PCache.get
        ((PCache.get ((PCache.set (PCache.init 10 10) "k" 1 0).1) "k" 5).2)
        "k" 12).1 = some 1 ∧
    ¬((12 : ℚ) - 0 < 10) := by
  constructor
  · norm_num [PCache.init, PCache.set, PCache.insertEntry, PCache.get,
      aget, agetD, aset, argminVal, akeys]
  · norm_num

/-- Claim C1 (amended): TTL freshness is measured from the LAST recorded
access, not from insertion.  (1) `PredictionCache.get(key)` returns a
cached value `v` iff `key` is in the cache dict and
`now - access_times[key] < ttl`, where each hit resets
`access_times[key]` to `now`; an entry never accessed since insertion
therefore does expire `ttl` after insertion, but a hit restarts the
clock.  (2) `ModelCache.get_model` on an entry whose last access is at
least `ttl` old performs a storage load (evict-then-reload): the stale
entry is deleted and the reloaded artifact (or nothing, when the load
raises) is what the cache then holds. -/
theorem c1_ttl_from_last_access :
    (∀ (c : PCache) (key : String) (now v : ℚ),
      (PCache.get c key now).1 = some v ↔
        aget c.cache key = some v ∧
        now - agetD c.access_times key 0 < c.ttl) ∧
    (∀ (c : MCache) (path : String) (now : ℚ)
      (load : String → Except String ℕ) (m : ℕ),
      (akeys c.cache).Nodup →
      aget c.cache path = some m →
      c.ttl ≤ now - agetD c.access_times path 0 →
      (MCache.get_model c path now load).2.2 = 1 ∧
      aget (MCache.get_model c path now load).2.1.cache path =
        (match load path with
         | Except.ok m2 => some m2
         | Except.error _ => none)) := by
  constructor
  · intro c key now v
    unfold PCache.get
    cases hg : aget c.cache key with
    | none =>
      simp only [hg]
      constructor
      · intro h
        exact absurd h (by simp)
      · rintro ⟨h, _⟩
        exact absurd h (by simp)
    | some v0 =>
      simp only [hg]
      by_cases hexp : c.ttl ≤ now - agetD c.access_times key 0
      · rw [if_pos hexp]
        simp only
        constructor
        · intro h
          exact absurd h (by simp)
        · rintro ⟨_, hlt⟩
          exact absurd hexp (not_le.mpr hlt)
      · rw [if_neg hexp]
        simp only [Option.some.injEq]
        constructor
        · rintro rfl
          exact ⟨rfl, not_le.mp hexp⟩
        · rintro ⟨hv, _⟩
          exact hv
  · intro c path now load m hnd hm hexp
    unfold MCache.get_model
    simp only [hm]
    rw [if_neg (not_lt.mpr hexp)]
    cases hl : load path with
    | ok m2 =>
      simp only [hl]
      exact ⟨trivial, aget_aset_self _ _ _⟩
    | error e =>
      simp only [hl]
      exact ⟨trivial, aget_aerase_self_of_nodup _ _ hnd⟩

/-- Claim C1 witness: the amended theorem applied at concrete states.  A
fresh hit within the TTL of the last access returns the cached value,
and a `ModelCache` entry one full TTL past its last access triggers a
storage load that replaces it. -/
theorem c1_witness :
    (PCache.get ⟨[("k", 1)], 10, 10, [("k", 0)], [("k", 1)]⟩ "k" 5).1 =
        some 1 ∧
    (MCache.get_model ⟨[("p", 7)], 10, [("p", 0)]⟩ "p" 12
        (fun _ => Except.ok 9)).2.2 = 1 ∧
    aget (MCache.get_model ⟨[("p", 7)], 10, [("p", 0)]⟩ "p" 12
        (fun _ => Except.ok 9)).2.1.cache "p" = some 9 := by
  have h1 := (c1_ttl_from_last_access.1
    ⟨[("k", 1)], 10, 10, [("k", 0)], [("k", 1)]⟩ "k" 5 1).mpr
    ⟨by norm_num [aget], by norm_num [agetD, aget]⟩
  have h2 := c1_ttl_from_last_access.2 ⟨[("p", 7)], 10, [("p", 0)]⟩ "p" 12
    (fun _ => Except.ok 9) 7 (by simp [akeys]) (by norm_num [aget])
    (by norm_num [agetD, aget])
  exact ⟨h1, h2.1, h2.2⟩

/-- Claim C9: two `ModelCache.get_model` calls on the same path within
the TTL perform exactly one storage load.  Starting from any state that
does not yet cache `path`, with a loader that succeeds with artifact
`m`: the first call loads from storage exactly once and returns `m`; a
second call at any time less than `ttl` after the first performs zero
storage loads, returns the same in-memory artifact, leaves the cache
dict untouched, and refreshes only the access time. -/
theorem c9_single_load_within_ttl
    (c : MCache) (path : String) (t1 t2 : ℚ)
    (load : String → Except String ℕ) (m : ℕ)
    (hmiss : aget c.cache path = none)
    (hload : load path = Except.ok m)
    (httl : t2 - t1 < c.ttl) :
    (MCache.get_model c path t1 load).1 = Except.ok m ∧
    (MCache.get_model c path t1 load).2.2 = 1 ∧
    (MCache.get_model (MCache.get_model c path t1 load).2.1 path t2
        load).1 = Except.ok m ∧
    (MCache.get_model (MCache.get_model c path t1 load).2.1 path t2
        load).2.2 = 0 ∧
    (MCache.get_model (MCache.get_model c path t1 load).2.1 path t2
        load).2.1.cache = (MCache.get_model c path t1 load).2.1.cache ∧
    aget (MCache.get_model (MCache.get_model c path t1 load).2.1 path t2
        load).2.1.access_times path = some t2 := by
  have h1 : MCache.get_model c path t1 load =
      (Except.ok m,
       { c with
         cache := aset c.cache path m,
         access_times := aset c.access_times path t1 }, 1) := by
    unfold MCache.get_model
    simp only [hmiss, hload]
  rw [h1]
  have hget : aget (aset c.cache path m) path = some m :=
    aget_aset_self c.cache path m
  have htime : agetD (aset c.access_times path t1) path 0 = t1 := by
    unfold agetD
    rw [aget_aset_self]
    rfl
  have h2 : MCache.get_model
      ({ c with
         cache := aset c.cache path m,
         access_times := aset c.access_times path t1 } : MCache) path t2
        load =
      (Except.ok m,
       { c with
         cache := aset c.cache path m,
         access_times := aset (aset c.access_times path t1) path t2 }, 0) := by
    unfold MCache.get_model
    simp only [hget, htime]
    rw [if_pos httl]
  rw [h2]
  refine ⟨rfl, rfl, rfl, rfl, rfl, ?_⟩
  exact aget_aset_self _ _ _

/-- Claim C9 witness: a fresh default cache (`ttl = 3600`), a loader
returning artifact 42, calls at times 0 and 10. -/
theorem c9_witness :
    (MCache.get_model (MCache.init 3600) "model.bin" 0
        (fun _ => Except.ok 42)).1 = Except.ok 42 ∧
    (MCache.get_model (MCache.get_model (MCache.init 3600) "model.bin" 0
        (fun _ => Except.ok 42)).2.1 "model.bin" 10
        (fun _ => Except.ok 42)).2.2 = 0 := by
  have h := c9_single_load_within_ttl (MCache.init 3600) "model.bin" 0 10
    (fun _ => Except.ok 42) 42 (by norm_num [MCache.init, aget]) rfl
    (by norm_num [MCache.init])
  exact ⟨h.1, h.2.2.2.1⟩

/-- Claim C10: the claimed invariant is broken by the code and `set` CAN
raise.  `PredictionCache.get` on an expired key deletes the key from
`self.cache` only, leaving its `access_times`/`access_counts` entries
behind (unlike `clear_expired` and unlike `ModelCache`, which clean up
every dict).  Failing run, with `max_size = 1`, `ttl = 1`:
`set("a", 0)` at t=0; `get("a")` at t=5 expires the entry — after it the
cache dict is empty yet `access_counts` still holds `"a"`, so the three
key sets differ; `set("b", 0)` at t=5 fills the cache again; the next
`set("c", 0)` at t=5 must evict, picks the stale key `"a"` (smallest
access count, 1 vs 1 for `"b"`, earliest insertion wins the tie) which
is NOT in the cache dict, and `del self.cache["a"]` raises `KeyError`
out of `set` with nothing inserted. -/
theorem c10_stale_metadata_keyerror :
    (akeys ((PCache.get ((PCache.set (PCache.init 1 1) "a" 0 0).1)
        "a" 5).2).cache = [] ∧
     akeys ((PCache.get ((PCache.set (PCache.init 1 1) "a" 0 0).1)
        "a" 5).2).access_counts = ["a"]) ∧
    (PCache.set ((PCache.set ((PCache.get
        ((PCache.set (PCache.init 1 1) "a" 0 0).1) "a" 5).2)
        "b" 0 5).1) "c" 0 5).2 = true ∧
    (PCache.set ((PCache.set ((PCache.get
        ((PCache.set (PCache.init 1 1) "a" 0 0).1) "a" 5).2)
        "b" 0 5).1) "c" 0 5).1 =
      (PCache.set ((PCache.get
        ((PCache.set (PCache.init 1 1) "a" 0 0).1) "a" 5).2)
        "b" 0 5).1 := by
  refine ⟨⟨?_, ?_⟩, ?_, ?_⟩ <;>
    simp +decide [PCache.init, PCache.set, PCache.insertEntry, PCache.get,
      aget, agetD, aset, aerase, argminVal, argminStep, akeys, List.foldl]

/-- Claim C4: (1) every reachable `PredictionCache` state holds at most
`max_size` entries in its cache dict; (2) whenever a `set` on a full
cache completes without raising, the victim it removed was present in
the cache dict and had the globally smallest access count among all
tracked entries — in particular among the cached ones; (3) Scenario B:
with `max_size = 2`, after `set("a",1)`, `set("b",2)`, `get("a")` (which
raises the count of `"a"` to 2), `set("c",3)` evicts `"b"` (count 1) and
the cache then contains exactly `a` and `c`. -/
theorem c4_capacity_and_least_accessed_eviction :
    (∀ (ms : ℕ) (ttl : ℚ) (c : PCache), PCacheReach ms ttl c →
      c.cache.length ≤ ms) ∧
    (∀ (ms : ℕ) (ttl : ℚ) (c : PCache) (key : String) (value now : ℚ)
       (lru : String) (cnt : ℕ),
      PCacheReach ms ttl c →
      c.max_size ≤ c.cache.length →
      argminVal c.access_counts = some (lru, cnt) →
      (PCache.set c key value now).2 = false →
      lru ∈ akeys c.cache ∧
      ∀ k ∈ akeys c.cache,
        agetD c.access_counts lru 0 ≤ agetD c.access_counts k 0) ∧
    (akeys ((PCache.set ((PCache.get ((PCache.set ((PCache.set
        (PCache.init 2 600) "a" 1 0).1) "b" 2 0).1) "a" 0).2)
        "c" 3 0).1).cache = ["a", "c"] ∧
     (PCache.set ((PCache.get ((PCache.set ((PCache.set
        (PCache.init 2 600) "a" 1 0).1) "b" 2 0).1) "a" 0).2)
        "c" 3 0).2 = false ∧
     agetD ((PCache.get ((PCache.set ((PCache.set
        (PCache.init 2 600) "a" 1 0).1) "b" 2 0).1) "a" 0).2).access_counts
        "a" 0 = 2 ∧
     agetD ((PCache.get ((PCache.set ((PCache.set
        (PCache.init 2 600) "a" 1 0).1) "b" 2 0).1) "a" 0).2).access_counts
        "b" 0 = 1) := by
  refine ⟨?_, ?_, ?_⟩
  · intro ms ttl c h
    exact (pcacheReach_inv ms ttl c h).len
  · intro ms ttl c key value now lru cnt hreach hfull harg hok
    have hinv := pcacheReach_inv ms ttl c hreach
    have hmem : lru ∈ akeys c.cache := by
      by_contra hmem
      unfold PCache.set at hok
      rw [if_pos hfull, harg] at hok
      simp only [if_neg hmem] at hok
      exact absurd hok (by simp)
    refine ⟨hmem, fun k hk => ?_⟩
    have hkc : k ∈ akeys c.access_counts :=
      (hinv.te k).mp (hinv.sub k hk)
    obtain ⟨ck, hck⟩ : ∃ ck, aget c.access_counts k = some ck := by
      have := (aget_isSome_iff_mem_akeys c.access_counts k).mpr hkc
      cases hgk : aget c.access_counts k with
      | none => rw [hgk] at this; simp at this
      | some x => exact ⟨x, rfl⟩
    have hkmem : (k, ck) ∈ c.access_counts := aget_mem _ _ _ hck
    have hle : cnt ≤ ck := argminVal_le c.access_counts (lru, cnt) harg _ hkmem
    have hlru : aget c.access_counts lru = some cnt :=
      aget_of_mem_nodup _ _ _ hinv.nd_counts
        (argminVal_mem c.access_counts (lru, cnt) harg)
    unfold agetD
    rw [hlru, hck]
    simpa using hle
  · refine ⟨?_, ?_, ?_, ?_⟩ <;>
      simp +decide [PCache.init, PCache.set, PCache.insertEntry,
        PCache.get, aget, agetD, aset, aerase, argminVal, argminStep,
        akeys, List.foldl]

/-- Claim C4 witness: both universally quantified parts applied to the
concrete reachable state reached by `set("a",1)` then `set("b",2)` on a
fresh cache with `max_size = 2`, `ttl = 600`. -/
theorem c4_witness :
    ((PCache.set ((PCache.set (PCache.init 2 600) "a" 1 0).1)
        "b" 2 0).1).cache.length ≤ 2 ∧
    "a" ∈ akeys ((PCache.set ((PCache.set (PCache.init 2 600) "a" 1 0).1)
        "b" 2 0).1).cache := by
  have hreach : PCacheReach 2 600
      ((PCache.set ((PCache.set (PCache.init 2 600) "a" 1 0).1)
        "b" 2 0).1) :=
    PCacheReach.set _ "b" 2 0 (PCacheReach.set _ "a" 1 0 PCacheReach.init)
  refine ⟨c4_capacity_and_least_accessed_eviction.1 2 600 _ hreach, ?_⟩
  refine (c4_capacity_and_least_accessed_eviction.2.1 2 600 _ "x" 9 0 "a" 1
    hreach ?_ ?_ ?_).1 <;>
    simp +decide [PCache.init, PCache.set, PCache.insertEntry,
      PCache.get, aget, agetD, aset, aerase, argminVal, argminStep,
      akeys, List.foldl]

/-- Claim C2 counterexample.  The claim states that `set_active(id)`
fails and leaves the registry unchanged when `id`'s artifacts cannot be
validated.  The activation endpoint never validates artifacts: on a
registry holding a single version whose artifacts are invalid
(`artifactsValid = false`, i.e. `ModelManager.validate_model` would
fail), activation succeeds anyway, mutates the registry, and marks the
invalid version active and deployed. -/
theorem c2_counterexample :
    activate_model [⟨1, false, "trained", false⟩] 1 =
      Except.ok [⟨1, true, "deployed", false⟩] ∧
    (∀ e, activate_model [⟨1, false, "trained", false⟩] 1 ≠
      Except.error e) ∧
    ([⟨1, true, "deployed", false⟩] : List MLModelRow) ≠
      [⟨1, false, "trained", false⟩] := by
  refine ⟨?_, ?_, ?_⟩
  · simp +decide [activate_model]
  · intro e
    simp +decide [activate_model]
  · simp +decide

/-- Claim C2 (amended): the activation endpoint checks only registry
presence, never artifact validity.  If `model_id` occurs exactly once in
the registry, `activate_model` succeeds — regardless of the
`artifactsValid` flag of any row — and afterwards exactly one version is
active, namely `model_id`, with status `deployed`; if `model_id` is
absent, it fails with a 404 and the registry is unchanged (the endpoint
returns before any mutation). -/
theorem c2_single_active_after_activation
    (db : List MLModelRow) (model_id : ℕ) :
    ((db.filter (fun m => m.id = model_id)).length = 1 →
      ∃ db2, activate_model db model_id = Except.ok db2 ∧
        db2.countP (fun m => m.is_active) = 1 ∧
        (∀ m ∈ db2, m.is_active = true → m.id = model_id) ∧
        (∀ m ∈ db2, m.id = model_id → m.status = "deployed")) ∧
    ((db.filter (fun m => m.id = model_id)).length = 0 →
      activate_model db model_id = Except.error "Model not found") := by
  constructor
  · intro hone
    obtain ⟨x, hx⟩ := List.length_eq_one.mp hone
    refine ⟨db.map (fun m =>
      if m.id = model_id then
        { m with is_active := true, status := "deployed" }
      else { m with is_active := false }), ?_, ?_, ?_, ?_⟩
    · unfold activate_model
      rw [hx]
    · rw [List.countP_map]
      have hcong : ∀ m ∈ db,
          (((fun m : MLModelRow => m.is_active) ∘
            (fun m : MLModelRow =>
              if m.id = model_id then
                { m with is_active := true, status := "deployed" }
              else { m with is_active := false })) m = true ↔
          (fun m : MLModelRow => decide (m.id = model_id)) m = true) := by
        intro m _
        by_cases h : m.id = model_id <;> simp [h]
      rw [List.countP_congr hcong]
      have : db.countP (fun m => decide (m.id = model_id)) =
          (db.filter (fun m => m.id = model_id)).length := by
        rw [List.countP_eq_length_filter]
      rw [this, hx]
      rfl
    · intro m hm hact
      obtain ⟨m0, _, rfl⟩ := List.mem_map.mp hm
      by_cases h : m0.id = model_id
      · simp [h]
      · simp [h] at hact
    · intro m hm hid
      obtain ⟨m0, _, rfl⟩ := List.mem_map.mp hm
      by_cases h : m0.id = model_id
      · simp [h]
      · simp [h] at hid
  · intro hzero
    unfold activate_model
    rw [List.length_eq_zero.mp hzero]

/-- Claim C2 witness: the amended theorem applied to a two-row registry
where version 2 is currently active and version 1 (with invalid
artifacts) is activated. -/
theorem c2_witness :
    ∃ db2, activate_model
        [⟨1, false, "trained", false⟩, ⟨2, true, "deployed", true⟩] 1 =
      Except.ok db2 ∧
      db2.countP (fun m => m.is_active) = 1 ∧
      (∀ m ∈ db2, m.is_active = true → m.id = 1) ∧
      (∀ m ∈ db2, m.id = 1 → m.status = "deployed") :=
  (c2_single_active_after_activation
    [⟨1, false, "trained", false⟩, ⟨2, true, "deployed", true⟩] 1).1
    (by simp +decide)

/-- Claim C8 counterexample.  The claim says `compare(id1, id2, metric)`
ranks by a chosen metric and, for versions A (r2 = 0.9, mae = 0.5) and B
(r2 = 0.7, mae = 0.3), comparing "on r2" yields a recommendation naming
A.  `ModelManager.compare_models` takes NO metric argument: it always
aggregates the three fixed metrics `test_mae` (lower better), `test_r2`
(higher better) and `performance_score` (higher better, tie to version2,
both defaulting to 0 here).  On exactly the scenario metrics, B wins
`test_mae` and the `performance_score` tie while A wins only `test_r2`,
so the one and only recommendation the code can produce names B — there
is no metric selection under which the code recommends A. -/
theorem c8_counterexample :
    (compare_models "A" "B" [("test_r2", 9 / 10), ("test_mae", 1 / 2)]
        [("test_r2", 7 / 10), ("test_mae", 3 / 10)]).recommendation =
      "B performs better overall" ∧
    (compare_models "A" "B" [("test_r2", 9 / 10), ("test_mae", 1 / 2)]
        [("test_r2", 7 / 10), ("test_mae", 3 / 10)]).recommendation ≠
      "A performs better overall" := by
  constructor <;>
    · simp +decide [compare_models, agetD, aget]
      norm_num
      try simp +decide

/-- Claim C8 (amended): `compare_models(version1, version2)` takes no
metric parameter.  Per-metric winners follow the correct directions —
`version1` wins `test_mae` iff its value (default 999) is strictly
lower, and wins `test_r2`/`performance_score` iff its value (default 0)
is strictly higher, all ties going to `version2` — and the
recommendation names whichever version wins at least two of those three
fixed metrics.  On the Scenario E metrics the recommendation names B,
not A. -/
theorem c8_direction_and_majority :
    (∀ (v1 v2 : String) (m1 m2 : List (String × ℚ)), v1 ≠ v2 →
      ((compare_models v1 v2 m1 m2).maeWinner = v1 ↔
        agetD m1 "test_mae" 999 < agetD m2 "test_mae" 999) ∧
      ((compare_models v1 v2 m1 m2).r2Winner = v1 ↔
        agetD m2 "test_r2" 0 < agetD m1 "test_r2" 0) ∧
      ((compare_models v1 v2 m1 m2).perfWinner = v1 ↔
        agetD m2 "performance_score" 0 < agetD m1 "performance_score" 0) ∧
      (2 ≤ (if (compare_models v1 v2 m1 m2).maeWinner = v1 then 1 else 0) +
          (if (compare_models v1 v2 m1 m2).r2Winner = v1 then 1 else 0) +
          (if (compare_models v1 v2 m1 m2).perfWinner = v1 then 1 else 0) →
        (compare_models v1 v2 m1 m2).recommendation =
          v1 ++ " performs better overall") ∧
      (2 ≤ (if (compare_models v1 v2 m1 m2).maeWinner = v2 then 1 else 0) +
          (if (compare_models v1 v2 m1 m2).r2Winner = v2 then 1 else 0) +
          (if (compare_models v1 v2 m1 m2).perfWinner = v2 then 1 else 0) →
        (compare_models v1 v2 m1 m2).recommendation =
          v2 ++ " performs better overall")) ∧
    (compare_models "A" "B" [("test_r2", 9 / 10), ("test_mae", 1 / 2)]
        [("test_r2", 7 / 10), ("test_mae", 3 / 10)]).recommendation =
      "B performs better overall" := by
  constructor
  · intro v1 v2 m1 m2 hne
    have hne2 : v2 ≠ v1 := hne.symm
    by_cases h1 : agetD m1 "test_mae" 999 < agetD m2 "test_mae" 999 <;>
      by_cases h2 : agetD m2 "test_r2" 0 < agetD m1 "test_r2" 0 <;>
        by_cases h3 :
          agetD m2 "performance_score" 0 <
            agetD m1 "performance_score" 0 <;>
          simp [compare_models, h1, h2, h3, hne, hne2]
  · simp +decide [compare_models, agetD, aget]
    norm_num

/-- Claim C8 witness: the direction/majority theorem applied to the
Scenario E metrics dicts. -/
theorem c8_witness :
    (compare_models "A" "B" [("test_r2", 9 / 10), ("test_mae", 1 / 2)]
        [("test_r2", 7 / 10), ("test_mae", 3 / 10)]).r2Winner = "A" ∧
    (compare_models "A" "B" [("test_r2", 9 / 10), ("test_mae", 1 / 2)]
        [("test_r2", 7 / 10), ("test_mae", 3 / 10)]).maeWinner = "B" := by
  have h := c8_direction_and_majority.1 "A" "B"
    [("test_r2", 9 / 10), ("test_mae", 1 / 2)]
    [("test_r2", 7 / 10), ("test_mae", 3 / 10)] (by simp +decide)
  constructor
  · refine (h.2.1).mpr ?_
    simp +decide [agetD, aget]
    norm_num
  · have hmae := h.1
    by_cases hm : (compare_models "A" "B"
        [("test_r2", 9 / 10), ("test_mae", 1 / 2)]
        [("test_r2", 7 / 10), ("test_mae", 3 / 10)]).maeWinner = "A"
    · exfalso
      have hc := hmae.mp hm
      simp +decide [agetD, aget] at hc
      norm_num at hc
    · simp +decide [compare_models, agetD, aget] at hm ⊢
      norm_num at hm ⊢

/-- Claim C6 counterexample.  The claim says that with 2 observations
the insufficiency error "is raised to the caller" of the forecast.
`predict_multi_horizon` wraps its whole body in `try/except Exception`:
the `ValueError` raised inside `create_prediction_features` is caught
and converted into a normally returned error dict, so NO exception
reaches the forecast's caller — the result is `Except.ok` carrying the
error payload, never `Except.error`. -/
theorem c6_counterexample :
    predictMultiHorizon [0, 1] =
      Except.ok (ForecastOutcome.errorPayload
        "Insufficient historical data for prediction (need at least 3 days)") ∧
    ∀ e, predictMultiHorizon [0, 1] ≠ Except.error e := by
  constructor
  · simp +decide [predictMultiHorizon, createPredictionFeaturesGate,
      recentWindow, List.foldl]
  · intro e
    simp [predictMultiHorizon]

/-- Claim C6 (amended): the window-loading gate of
`create_prediction_features` errors exactly when fewer than 3
observations dated at most `as_of` exist (the `.tail(7)` window holds
`min(n, 7)` rows, so the `< 3` test is equivalent to `n < 3`); a
forecast over exactly 3 observations passes the gate (boundary), and a
forecast over 2 observations produces the insufficiency error — which
`predict_multi_horizon` catches and returns as an error payload to its
caller instead of letting the exception propagate. -/
theorem c6_insufficient_history_gate :
    (∀ (dates : List ℚ) (as_of : ℚ),
      (∃ e, createPredictionFeaturesGate dates as_of = Except.error e) ↔
        (dates.filter (fun d => d ≤ as_of)).length < 3) ∧
    predictMultiHorizon [0, 1, 2] = Except.ok ForecastOutcome.payload ∧
    predictMultiHorizon [0, 1] =
      Except.ok (ForecastOutcome.errorPayload
        "Insufficient historical data for prediction (need at least 3 days)") := by
  refine ⟨?_, ?_, ?_⟩
  · intro dates as_of
    unfold createPredictionFeaturesGate recentWindow
    have hlen : ((dates.filter (fun d => d ≤ as_of)).drop
        ((dates.filter (fun d => d ≤ as_of)).length - 7)).length =
        min (dates.filter (fun d => d ≤ as_of)).length 7 := by
      rw [List.length_drop]
      omega
    by_cases h : ((dates.filter (fun d => d ≤ as_of)).drop
        ((dates.filter (fun d => d ≤ as_of)).length - 7)).length < 3
    · rw [if_pos h]
      rw [hlen] at h
      constructor
      · intro _
        omega
      · intro _
        exact ⟨_, rfl⟩
    · rw [if_neg h]
      rw [hlen] at h
      constructor
      · rintro ⟨e, he⟩
        exact absurd he (by simp)
      · intro hlt
        omega
  · simp +decide [predictMultiHorizon, createPredictionFeaturesGate,
      recentWindow, List.foldl]
  · simp +decide [predictMultiHorizon, createPredictionFeaturesGate,
      recentWindow, List.foldl]

/-- Claim C6 witness: the gate characterization applied at 3 and at 2
observation dates. -/
theorem c6_witness :
    (¬∃ e, createPredictionFeaturesGate [0, 1, 2] 2 = Except.error e) ∧
    (∃ e, createPredictionFeaturesGate [0, 1] 1 = Except.error e) := by
  constructor
  · intro hex
    have h := (c6_insufficient_history_gate.1 [0, 1, 2] 2).mp hex
    simp +decide [List.filter] at h
  · refine (c6_insufficient_history_gate.1 [0, 1] 1).mpr ?_
    simp +decide [List.filter]

/-- Claim C5 counterexample.  The per-day bounds are
`round(final_pred * 0.9, 3)` and `round(final_pred * 1.1, 3)` with no
sign guard: when the blended point prediction is negative the "lower"
bound exceeds the point prediction.  Concretely, a model output of -10
with current weight 2.5 and growth rate 0 blends to -25/4 on day 1, and
the produced triple has lower bound -45/8 > -25/4 = predicted. -/
theorem c5_counterexample :
    (horizonTriples (fun _ => -10) (5 / 2) 0 7)[0]? =
      some ((-(25 / 4) : ℚ), (-(45 / 8) : ℚ), (-(55 / 8) : ℚ)) ∧
    ¬((-(45 / 8) : ℚ) ≤ -(25 / 4)) := by
  have e1 : round3 (-(25 / 4) : ℚ) = -(25 / 4) := by
    have h := round3_of_int_div (-6250)
    norm_num at h
    exact h
  have e2 : round3 (-(45 / 8) : ℚ) = -(45 / 8) := by
    have h := round3_of_int_div (-5625)
    norm_num at h
    exact h
  have e3 : round3 (-(55 / 8) : ℚ) = -(55 / 8) := by
    have h := round3_of_int_div (-6875)
    norm_num at h
    exact h
  constructor
  · have hmap : (horizonTriples (fun _ => -10) (5 / 2) 0 7)[0]? =
        some (round3 (-(25 / 4)), round3 (-(25 / 4) * (9 / 10)),
          round3 (-(25 / 4) * (11 / 10))) := by
      simp [horizonTriples, blendedPred]
      norm_num
    rw [hmap]
    rw [show (-(25 / 4) : ℚ) * (9 / 10) = -(45 / 8) by norm_num]
    rw [show (-(25 / 4) : ℚ) * (11 / 10) = -(55 / 8) by norm_num]
    rw [e1, e2, e3]
  · norm_num

/-- Claim C5 (amended): for every horizon `h` and day `d` (`1 ≤ d ≤ h`),
PROVIDED the blended point prediction for day `d` is nonnegative, the
produced triple satisfies `lower ≤ predicted ≤ upper`; the bounds are
the blended point times `0.9` and `1.1`, rounded to 3 decimals, and the
monotonicity of rounding carries the inequality through.  (The
hypothesis is necessary: `c5_counterexample` shows it fails for a
negative blend.) -/
theorem c5_bounds_hold_for_nonneg_blend
    (preds : ℕ → ℚ) (cw gr : ℚ) (h d : ℕ) (hd : d < h)
    (hpos : 0 ≤ blendedPred (preds (d + 1)) cw gr (d + 1)) :
    ∃ p lo hi, (horizonTriples preds cw gr h)[d]? = some (p, lo, hi) ∧
      lo ≤ p ∧ p ≤ hi := by
  refine ⟨round3 (blendedPred (preds (d + 1)) cw gr (d + 1)),
    round3 (blendedPred (preds (d + 1)) cw gr (d + 1) * (9 / 10)),
    round3 (blendedPred (preds (d + 1)) cw gr (d + 1) * (11 / 10)),
    ?_, ?_, ?_⟩
  · unfold horizonTriples
    rw [List.getElem?_map]
    simp [List.getElem?_range, hd]
  · exact round3_mono (by linarith)
  · exact round3_mono (by linarith)

/-- Claim C5 witness: the amended theorem applied at a positive model
output (2), current weight 2.5, growth rate 0.01, horizon 7, day 1. -/
theorem c5_witness :
    ∃ p lo hi,
      (horizonTriples (fun _ => 2) (5 / 2) (1 / 100) 7)[0]? =
        some (p, lo, hi) ∧ lo ≤ p ∧ p ≤ hi :=
  c5_bounds_hold_for_nonneg_blend (fun _ => 2) (5 / 2) (1 / 100) 7 0
    (by norm_num) (by norm_num [blendedPred])

theorem length_minmaxNormalize (raw : List ℚ) :
    (minmaxNormalize raw).length = raw.length := by
  unfold minmaxNormalize
  cases hmin : raw.min? with
  | none =>
    have : raw = [] := List.min?_eq_none_iff.mp hmin
    subst this
    simp
  | some mn =>
    cases hmax : raw.max? with
    | none =>
      have : raw = [] := List.max?_eq_none_iff.mp hmax
      subst this
      simp [List.min?] at hmin
    | some mx =>
      by_cases he : mx = mn
      · simp [he]
      · simp [he]

theorem length_isoAnomalyScore (trained : Bool) (n : ℕ) (raw : List ℚ)
    (h : raw.length = n) : (isoAnomalyScore trained n raw).length = n := by
  unfold isoAnomalyScore
  cases trained with
  | false => simp
  | true => simp [length_minmaxNormalize, h]

theorem length_lofAnomalyScore (trained : Bool) (n : ℕ) (raw : List ℚ)
    (h : raw.length = n) : (lofAnomalyScore trained n raw).length = n := by
  unfold lofAnomalyScore
  cases trained with
  | false => simp
  | true => simp [length_minmaxNormalize, h]

theorem getElem?_eq_some_getD (l : List ℚ) (i : ℕ) (h : i < l.length) :
    l[i]? = some (l.getD i 0) := by
  rw [List.getElem?_eq_getElem h]
  rw [List.getD_eq_getElem?_getD, List.getElem?_eq_getElem h]
  rfl

theorem cond_zipWith_getElem (w : ℚ) (c : Prop) [Decidable c]
    (s t : List ℚ) (i : ℕ) (sv tv : ℚ) (hs : s[i]? = some sv)
    (ht : t[i]? = some tv) :
    (if c then List.zipWith (fun a b => a + w * b) s t else s)[i]? =
      some (if c then sv + w * tv else sv) := by
  split_ifs with hc
  · exact getElem?_zipWith _ s t i sv tv hs ht
  · exact hs

/-- Claim C3 (amended): the per-row ensemble score is the weighted sum
of the isolation, density and z-score-membership scores of the detectors
with positive weights, divided by the sum of ALL FOUR weight dict values
(when positive) — not by the sum of the weights of the detectors that
actually contributed.  The `timeseries` weight never adds a score term
yet always inflates the divisor, and an untrained detector contributes a
zero score while its weight likewise stays in the divisor. -/
theorem c3_divisor_is_total_weight
    (w : EnsembleWeights) (isoT lofT statT : Bool)
    (isoRaw lofRaw : List ℚ) (means stds : List ℚ)
    (data : List (List ℚ)) (i : ℕ)
    (hiso : isoRaw.length = data.length)
    (hlof : lofRaw.length = data.length)
    (hi : i < data.length)
    (hw : 0 < w.iso_forest + w.lof + w.statistical + w.timeseries) :
    (ensembleDetect w isoT isoRaw lofT lofRaw statT means stds data)[i]? =
      some
        (((if 0 < w.iso_forest then
             w.iso_forest *
               (isoAnomalyScore isoT data.length isoRaw).getD i 0
           else 0) +
          (if 0 < w.lof then
             w.lof * (lofAnomalyScore lofT data.length lofRaw).getD i 0
           else 0) +
          (if 0 < w.statistical then
             w.statistical *
               (if i ∈ detectByZscore statT means stds data 3 then (1 : ℚ)
                else 0)
           else 0)) /
         (w.iso_forest + w.lof + w.statistical + w.timeseries)) := by
  have h0 : (List.replicate data.length (0 : ℚ))[i]? = some 0 :=
    getElem?_replicate_of_lt _ _ _ hi
  have hIsoGet : (isoAnomalyScore isoT data.length isoRaw)[i]? =
      some ((isoAnomalyScore isoT data.length isoRaw).getD i 0) :=
    getElem?_eq_some_getD _ _
      (by rw [length_isoAnomalyScore isoT _ isoRaw hiso]; exact hi)
  have hLofGet : (lofAnomalyScore lofT data.length lofRaw)[i]? =
      some ((lofAnomalyScore lofT data.length lofRaw).getD i 0) :=
    getElem?_eq_some_getD _ _
      (by rw [length_lofAnomalyScore lofT _ lofRaw hlof]; exact hi)
  have hStatGet : ((List.range data.length).map
      (fun j => if j ∈ detectByZscore statT means stds data 3 then (1 : ℚ)
        else 0))[i]? =
      some (if i ∈ detectByZscore statT means stds data 3 then (1 : ℚ)
        else 0) := by
    rw [List.getElem?_map]
    simp [List.getElem?_range, hi]
  have h1 := cond_zipWith_getElem w.iso_forest (0 < w.iso_forest)
    (List.replicate data.length 0)
    (isoAnomalyScore isoT data.length isoRaw) i 0
    ((isoAnomalyScore isoT data.length isoRaw).getD i 0) h0 hIsoGet
  have h2 := cond_zipWith_getElem w.lof (0 < w.lof) _ _ i _
    ((lofAnomalyScore lofT data.length lofRaw).getD i 0) h1 hLofGet
  have h3 := cond_zipWith_getElem w.statistical (0 < w.statistical) _ _ i _
    (if i ∈ detectByZscore statT means stds data 3 then (1 : ℚ) else 0)
    h2 hStatGet
  unfold ensembleDetect
  rw [if_pos hw]
  rw [List.getElem?_map, h3]
  simp only [Option.map_some']
  congr 1
  by_cases c1 : 0 < w.iso_forest <;> by_cases c2 : 0 < w.lof <;>
    by_cases c3 : 0 < w.statistical <;>
      simp [c1, c2, c3]

/-- Claim C3 counterexample.  Fit on three identical rows `[[0],[0],[0]]`
leaves the isolation forest (needs 10 rows) and LOF (needs 21) untrained
while the statistical detector trains with mean 0 and standard deviation
exactly 0; scoring the single row `[1]` flags it by z-score, so with the
default weights the code computes `0.2 * 1` and divides by the sum of
ALL weights `1.0`, returning `0.2`.  The claim's formula — divide by the
sum of the weights of the detectors that actually contribute, here only
the statistical detector's `0.2` — would give `0.2 * 1 / 0.2 = 1`. -/
theorem c3_counterexample :
    ensembleDetect defaultWeights (isoFitTrained [[0], [0], [0]]) []
        (lofFitTrained 20 [[0], [0], [0]]) []
        (statFitTrained [[0], [0], [0]]) (colMeans [[0], [0], [0]]) [0]
        [[1]] = [1 / 5] ∧
    (2 / 10 * 1 : ℚ) / (2 / 10) = 1 ∧ (1 / 5 : ℚ) ≠ 1 := by
  refine ⟨?_, by norm_num, by norm_num⟩
  simp +decide [ensembleDetect, defaultWeights, isoFitTrained,
    lofFitTrained, statFitTrained, colMeans, colVars, isoAnomalyScore,
    lofAnomalyScore, detectByZscore, rowZAnomalous, minmaxNormalize,
    List.range, List.range.loop, List.enum, List.filter]
  norm_num

/-- Claim C3 witness: the amended theorem applied at a trained isolation
forest with raw scores `[1/2, 1]`, untrained LOF and statistical
detectors, and a two-row batch. -/
theorem c3_witness :
    ∃ v, (ensembleDetect defaultWeights true [1 / 2, 1] false [0, 0]
        false [] [] [[1], [2]])[0]? = some v :=
  ⟨_, c3_divisor_is_total_weight defaultWeights true false false
    [1 / 2, 1] [0, 0] [] [] [[1], [2]] 0 (by norm_num) (by norm_num)
    (by norm_num) (by norm_num [defaultWeights])⟩

/-- Claim C7: (1) degenerate-batch rule — whenever every raw score in a
normalization batch equals every other (so max = min), min-max
normalization returns 0 for every row; (2) Scenario A — fitting the
ensemble on the three identical rows `[20, 60]` (isolation forest and
LOF stay untrained on 3 rows, the statistical detector trains with
per-column means `[20, 60]` and zero variance, hence standard deviations
exactly 0) and scoring the same three rows yields ensemble score 0 for
every row.  The fitted standard deviations enter as any nonnegative
values whose squares equal the fitted per-column variances, which forces
them to 0 here. -/
theorem c7_flat_batch_scores_zero :
    (∀ raw : List ℚ, (∀ x ∈ raw, ∀ y ∈ raw, x = y) →
      minmaxNormalize raw = List.replicate raw.length 0) ∧
    (∀ stds : List ℚ, stds.length = 2 →
      (∀ j, j < 2 → 0 ≤ stds.getD j 0 ∧
        stds.getD j 0 ^ 2 =
          (colVars [[20, 60], [20, 60], [20, 60]]).getD j 0) →
      ∀ isoRaw lofRaw : List ℚ,
        ensembleDetect defaultWeights
          (isoFitTrained [[20, 60], [20, 60], [20, 60]]) isoRaw
          (lofFitTrained 20 [[20, 60], [20, 60], [20, 60]]) lofRaw
          (statFitTrained [[20, 60], [20, 60], [20, 60]])
          (colMeans [[20, 60], [20, 60], [20, 60]]) stds
          [[20, 60], [20, 60], [20, 60]] = [0, 0, 0]) := by
  constructor
  · intro raw hall
    unfold minmaxNormalize
    cases hmin : raw.min? with
    | none =>
      have : raw = [] := List.min?_eq_none_iff.mp hmin
      subst this
      simp
    | some mn =>
      cases hmax : raw.max? with
      | none =>
        have : raw = [] := List.max?_eq_none_iff.mp hmax
        subst this
        simp [List.min?] at hmin
      | some mx =>
        have hmnm : mn ∈ raw := List.min?_mem (fun a b => min_choice a b) hmin
        have hmxm : mx ∈ raw := List.max?_mem (fun a b => max_choice a b) hmax
        have : mx = mn := hall mx hmxm mn hmnm
        simp [this]
  · intro stds hlen hsq isoRaw lofRaw
    have hvars : colVars [[20, 60], [20, 60], [20, 60]] = [0, 0] := by
      simp +decide [colVars, colMeans, List.range, List.range.loop]
      norm_num
    rw [hvars] at hsq
    obtain ⟨a, b, rfl⟩ : ∃ a b, stds = [a, b] := by
      cases stds with
      | nil => simp at hlen
      | cons a t =>
        cases t with
        | nil => simp at hlen
        | cons b t2 =>
          cases t2 with
          | nil => exact ⟨a, b, rfl⟩
          | cons c t3 => simp at hlen
    have ha := hsq 0 (by norm_num)
    have hb := hsq 1 (by norm_num)
    simp only [List.getD] at ha hb
    have ha0 : a = 0 := by
      have := ha.2
      have h2 : a ^ 2 = 0 := by simpa using this
      exact pow_eq_zero_iff (by norm_num) |>.mp h2
    have hb0 : b = 0 := by
      have := hb.2
      have h2 : b ^ 2 = 0 := by simpa using this
      exact pow_eq_zero_iff (by norm_num) |>.mp h2
    subst ha0
    subst hb0
    simp +decide [ensembleDetect, defaultWeights, isoFitTrained,
      lofFitTrained, statFitTrained, colMeans, isoAnomalyScore,
      lofAnomalyScore, detectByZscore, rowZAnomalous, minmaxNormalize,
      List.range, List.range.loop, List.enum, List.filter]
    norm_num

/-- Claim C7 witness: the degenerate-batch rule applied to the constant
batch `[2, 2, 2]`, and Scenario A applied with the (unique) fitted
standard deviations `[0, 0]`. -/
theorem c7_witness :
    minmaxNormalize [2, 2, 2] = List.replicate 3 0 ∧
    ensembleDetect defaultWeights
      (isoFitTrained [[20, 60], [20, 60], [20, 60]]) []
      (lofFitTrained 20 [[20, 60], [20, 60], [20, 60]]) []
      (statFitTrained [[20, 60], [20, 60], [20, 60]])
      (colMeans [[20, 60], [20, 60], [20, 60]]) [0, 0]
      [[20, 60], [20, 60], [20, 60]] = [0, 0, 0] := by
  constructor
  · have h := c7_flat_batch_scores_zero.1 [2, 2, 2] (by
      intro x hx y hy
      have hx2 : x = 2 := by
        simp only [List.mem_cons, List.not_mem_nil, or_false, or_self] at hx
        exact hx
      have hy2 : y = 2 := by
        simp only [List.mem_cons, List.not_mem_nil, or_false, or_self] at hy
        exact hy
      rw [hx2, hy2])
    simpa using h
  · refine c7_flat_batch_scores_zero.2 [0, 0] rfl ?_ [] []
    intro j hj
    interval_cases j <;>
      · constructor
        · simp
        · simp +decide [colVars, colMeans, List.range, List.range.loop]
          norm_num
